import Mathlib

/-!
Verification development for the first-principles decomposition app.

The definitions below are shallow embeddings of the TypeScript source:
* `callWithRetry` and its transient-error classification, from
  `src/services/geminiService.ts` (lines 14-29);
* the component deduplication / self-reference filter shared verbatim by
  `decomposeTopic` (lines 172-191) and `verifyFundamental` (lines 236-254)
  of `src/services/geminiService.ts`;
* the offline fallback payload `getFallbackDecomposition` (lines 104-115);
* the node tree and `updateNodeInTree` from `src/App.tsx` (lines 107-118),
  together with the state updates performed by the expansion / elaboration /
  socratic-question handlers.

JavaScript strings are modelled through their character lists; `trim`,
`toLowerCase` and `includes` are embedded below as `jsTrim`, `jsLower` and
`strIncludes`.
-/

namespace FirstPrinciples

/-- JavaScript whitespace test used by `String.prototype.trim`
(restricted to the ASCII whitespace characters). -/
def jsWs (c : Char) : Bool :=
  c.toNat = 32 || c.toNat = 9 || c.toNat = 10 || c.toNat = 13 ||
  c.toNat = 11 || c.toNat = 12

/-- `String.prototype.toLowerCase`, character by character (ASCII range). -/
def jsLowerChar (c : Char) : Char :=
  if 65 ≤ c.toNat ∧ c.toNat ≤ 90 then Char.ofNat (c.toNat + 32) else c

/-- Trim of a character list: drop leading and trailing whitespace. -/
def trimList (l : List Char) : List Char :=
  ((l.dropWhile jsWs).reverse.dropWhile jsWs).reverse

/-- Embedding of `s.trim()`. -/
def jsTrim (s : String) : String := ⟨trimList s.data⟩

/-- Embedding of `s.toLowerCase()`. -/
def jsLower (s : String) : String := ⟨s.data.map jsLowerChar⟩

/-- Does `pat` occur at the head of `l`? -/
def startsList (pat l : List Char) : Bool :=
  match pat, l with
  | [], _ => true
  | _ :: _, [] => false
  | p :: ps, c :: cs => p == c && startsList ps cs

/-- Does `pat` occur as a contiguous run inside `l`? -/
def subList (pat l : List Char) : Bool :=
  match l with
  | [] => pat.isEmpty
  | _ :: cs => startsList pat l || subList pat cs

/-- Embedding of `s.includes(pat)`. -/
def strIncludes (s pat : String) : Bool := subList pat.data s.data

/-- The fields of a JavaScript error value that `callWithRetry` inspects:
`error.status`, `error.code` and `error.message`. -/
structure JsError where
  status : Option Int
  code : Option Int
  message : Option String
deriving DecidableEq, Repr

/-- `const isRateLimit = error.status === 429 || error.code === 429 ||
(error.message && error.message.includes("429"));`
(src/services/geminiService.ts line 18). -/
def isRateLimit (e : JsError) : Bool :=
  e.status == some 429 || e.code == some 429 ||
    (match e.message with
     | some m => strIncludes m "429"
     | none => false)

/-- `const isServerOverload = error.status === 503 || error.code === 503;`
(src/services/geminiService.ts line 19). -/
def isServerOverload (e : JsError) : Bool :=
  e.status == some 503 || e.code == some 503

/-- `const MAX_RETRIES = 3;` -/
def MAX_RETRIES : Nat := 3

/-- `const BASE_DELAY = 2000;` -/
def BASE_DELAY : Nat := 2000

/-- Embedding of `callWithRetry` (src/services/geminiService.ts lines 14-29).
The repeatedly invoked operation is modelled as a function from the
invocation index (number of earlier invocations) to that invocation's
outcome.  The result is paired with the total number of invocations
performed.  `attempt` is the index of the next invocation. -/
def callWithRetryFuel (op : Nat → Except JsError α) (attempt : Nat)
    (retries : Nat) (delay : Nat) : Except JsError α × Nat :=
  match op attempt with
  | .ok v => (.ok v, attempt + 1)
  | .error e =>
    -- `if (retries > 0 && (isRateLimit || isServerOverload))` of the source,
    -- with the `retries > 0` test written as a match so the recursion is
    -- structural in `retries`.
    match retries with
    | 0 => (.error e, attempt + 1)
    | r + 1 =>
      if isRateLimit e || isServerOverload e then
        callWithRetryFuel op (attempt + 1) r (delay * 2)
      else
        (.error e, attempt + 1)

/-- `callWithRetry(fn, retries = MAX_RETRIES, delay = BASE_DELAY)`:
result of the call together with the total number of invocations of `fn`. -/
def callWithRetry (op : Nat → Except JsError α)
    (retries : Nat := MAX_RETRIES) (delay : Nat := BASE_DELAY) :
    Except JsError α × Nat :=
  callWithRetryFuel op 0 retries delay

/-- One raw component of a parsed decomposition response; every field is
optional because the dedup loop accesses `comp.name?` defensively. -/
structure RawComponent where
  name : Option String
  description : Option String
  isFundamental : Option Bool
  reasoning : Option String
deriving DecidableEq, Repr

/-- The normalized dedup key of a raw component: `some` of
`comp.name.trim().toLowerCase()` when the name is present and non-blank
after trimming, `none` otherwise. -/
def nameKey (c : RawComponent) : Option String :=
  match c.name with
  | none => none
  | some s => if jsTrim s = "" then none else some (jsLower (jsTrim s))

/-- The dedup loop body of `decomposeTopic` / `verifyFundamental`:
`seen` is the set of keys already kept, `rootTopic` the normalized topic. -/
def normGo (seen : List String) (rootTopic : String) :
    List RawComponent → List RawComponent
  | [] => []
  | comp :: rest =>
    match comp.name with
    | none => normGo seen rootTopic rest
    | some s =>
      let name := jsTrim s
      if name = "" then normGo seen rootTopic rest
      else
        let key := jsLower name
        if key ∈ seen ∨ key = rootTopic then normGo seen rootTopic rest
        else comp :: normGo (key :: seen) rootTopic rest

/-- The deduplication / self-reference filter applied to AI-returned
components, shared verbatim by `decomposeTopic`
(src/services/geminiService.ts lines 172-191) and `verifyFundamental`
(lines 236-254): `rootTopic = topic.toLowerCase().trim()`, keep a component
iff its trimmed name is non-empty, its key is unseen and differs from the
topic key. -/
def normalizeComponents (comps : List RawComponent) (topic : String) :
    List RawComponent :=
  normGo [] (jsTrim (jsLower topic)) comps

/-- "the error signals HTTP status `s`": a status code field on the error
equals `s`, or the error's message contains the decimal digits of `s`.
This is the detection mechanism asserted by the specification. -/
def claimSignals (e : JsError) (s : Int) (digits : String) : Prop :=
  e.status = some s ∨ e.code = some s ∨
    (∃ m, e.message = some m ∧ strIncludes m digits = true)

/-- The transient classification asserted by the claim: status 429 or 503,
each detectable via a status code field or a message substring. -/
def claimTransient (e : JsError) : Prop :=
  claimSignals e 429 "429" ∨ claimSignals e 503 "503"

/-- The classification the code actually implements: 429 via status field,
code field or message substring; 503 via status or code field only. -/
def amendedTransient (e : JsError) : Prop :=
  claimSignals e 429 "429" ∨ e.status = some 503 ∨ e.code = some 503

/-- If every invocation of `op` fails with a transient-classified error, the
retry loop runs `retries` times and the result is the error of invocation
`attempt + retries`, after `attempt + retries + 1` total invocations. -/
theorem callWithRetryFuel_allFail (op : Nat → Except JsError α)
    (h : ∀ n, ∃ e, op n = .error e ∧ (isRateLimit e || isServerOverload e) = true) :
    ∀ r a d e, op (a + r) = .error e →
      callWithRetryFuel op a r d = (.error e, a + r + 1) := by
  intro r
  induction r with
  | zero =>
    intro a d e he
    rw [Nat.add_zero] at he
    unfold callWithRetryFuel
    rw [he]
  | succ n ih =>
    intro a d e he
    obtain ⟨e0, he0, ht0⟩ := h a
    unfold callWithRetryFuel
    rw [he0]
    simp only [ht0, if_true]
    have harith : a + 1 + n = a + (n + 1) := by omega
    have := ih (a + 1) (d * 2) e (by rw [harith]; exact he)
    rw [this, harith]

/-- C1: for an operation raising a transient-marked error on every
invocation, `callWithRetry op maxRetries baseDelayMs` invokes `op` exactly
`maxRetries + 1` times, and raises the error of the last invocation
unchanged. -/
theorem callWithRetry_retryBound (op : Nat → Except JsError α)
    (maxRetries baseDelayMs : Nat)
    (h : ∀ n, ∃ e, op n = Except.error e ∧
      (isRateLimit e || isServerOverload e) = true) :
    (callWithRetry op maxRetries baseDelayMs).2 = maxRetries + 1 ∧
    ∀ e, op maxRetries = Except.error e →
      (callWithRetry op maxRetries baseDelayMs).1 = Except.error e := by
  obtain ⟨e, he, -⟩ := h maxRetries
  have main := callWithRetryFuel_allFail op h maxRetries 0 baseDelayMs e
    (by rw [Nat.zero_add]; exact he)
  constructor
  · show (callWithRetryFuel op 0 maxRetries baseDelayMs).2 = maxRetries + 1
    rw [main]
    simp
  · intro e' he'
    have hee : e' = e := by
      rw [he] at he'
      exact (Except.error.inj he').symm
    subst hee
    show (callWithRetryFuel op 0 maxRetries baseDelayMs).1 = Except.error e'
    rw [main]

/-- A rate-limit error signalled through the `status` field. -/
def errRate429 : JsError := ⟨some 429, none, none⟩

/-- An operation failing with `errRate429` on every invocation. -/
def opAlways429 : Nat → Except JsError Nat := fun _ => .error errRate429

/-- Witness for C1 at `maxRetries = 3`, `baseDelayMs = 2000`: four
invocations, final error propagated. -/
theorem callWithRetry_retryBound_witness :
    (callWithRetry opAlways429 3 2000).2 = 4 ∧
    (callWithRetry opAlways429 3 2000).1 = Except.error errRate429 := by
  have h := callWithRetry_retryBound opAlways429 3 2000
    (fun _ => ⟨errRate429, rfl, by decide⟩)
  exact ⟨h.1, h.2 errRate429 rfl⟩

/-- An error carrying "503" only in its message text; no status code field. -/
def errMsg503 : JsError := ⟨none, none, some "HTTP 503 Service Unavailable"⟩

/-- An operation failing with `errMsg503` on every invocation. -/
def opAlwaysMsg503 : Nat → Except JsError Nat := fun _ => .error errMsg503

/-- Counterexample to C2 as stated: `errMsg503` signals status 503 via a
string match in its message, yet `callWithRetry` with 3 retries remaining
invokes the operation exactly once and propagates the error — the code
never retries a 503 that is only present in the message text. -/
theorem claim_c2_counterexample :
    claimTransient errMsg503 ∧
    (callWithRetry opAlwaysMsg503 3 2000).2 = 1 ∧
    (callWithRetry opAlwaysMsg503 3 2000).1 = Except.error errMsg503 := by
  exact ⟨Or.inr (Or.inr (Or.inr ⟨_, rfl, by decide⟩)), rfl, rfl⟩

/-- C2 (amended): a failure is retried (while retries remain) exactly when
status/code field is 429, the message contains "429", or status/code field
is 503; a 503 signalled only in the message is ignored.  Behaviourally: an
operation always failing with error `e` is invoked `r + 1` times when `e`
is so classified and exactly once otherwise, and the error is propagated
unchanged in both cases. -/
theorem callWithRetry_transient_classification (e : JsError)
    (op : Nat → Except JsError α) (hop : ∀ n, op n = Except.error e)
    (r d : Nat) :
    ((isRateLimit e || isServerOverload e) = true ↔ amendedTransient e) ∧
    (callWithRetry op r d).2 =
      (if (isRateLimit e || isServerOverload e) = true then r + 1 else 1) ∧
    (callWithRetry op r d).1 = Except.error e := by
  constructor
  · constructor
    · intro ht
      simp only [isRateLimit, isServerOverload, Bool.or_eq_true, beq_iff_eq] at ht
      rcases ht with ((h1 | h2) | h3) | (h4 | h5)
      · exact Or.inl (Or.inl h1)
      · exact Or.inl (Or.inr (Or.inl h2))
      · match hm : e.message with
        | some m =>
          rw [hm] at h3
          exact Or.inl (Or.inr (Or.inr ⟨m, hm, h3⟩))
        | none => rw [hm] at h3; exact absurd h3 (by simp)
      · exact Or.inr (Or.inl h4)
      · exact Or.inr (Or.inr h5)
    · intro ht
      simp only [isRateLimit, isServerOverload, Bool.or_eq_true, beq_iff_eq]
      rcases ht with (h1 | h2 | ⟨m, hm, hs⟩) | (h4 | h5)
      · exact Or.inl (Or.inl (Or.inl h1))
      · exact Or.inl (Or.inl (Or.inr h2))
      · rw [hm]
        exact Or.inl (Or.inr hs)
      · exact Or.inr (Or.inl h4)
      · exact Or.inr (Or.inr h5)
  · by_cases ht : (isRateLimit e || isServerOverload e) = true
    · have main := callWithRetryFuel_allFail op
        (fun n => ⟨e, hop n, ht⟩) r 0 d e (by rw [Nat.zero_add]; exact hop r)
      rw [if_pos ht]
      constructor
      · show (callWithRetryFuel op 0 r d).2 = r + 1
        rw [main]
        simp
      · show (callWithRetryFuel op 0 r d).1 = Except.error e
        rw [main]
    · rw [if_neg ht]
      have hb : (isRateLimit e || isServerOverload e) = false := by
        simpa using ht
      have : callWithRetryFuel op 0 r d = (.error e, 1) := by
        cases r with
        | zero => unfold callWithRetryFuel; rw [hop 0]
        | succ n => unfold callWithRetryFuel; rw [hop 0]; simp [hb]
      exact ⟨by rw [show callWithRetry op r d = callWithRetryFuel op 0 r d from rfl, this],
             by rw [show callWithRetry op r d = callWithRetryFuel op 0 r d from rfl, this]⟩

/-- An overload error signalled through the `code` field. -/
def errCode503 : JsError := ⟨none, some 503, none⟩

/-- Witness for the amended C2: a `code = 503` error is transient (3 retries,
4 invocations at `r = 3`), while `errMsg503` is invoked exactly once. -/
theorem callWithRetry_transient_classification_witness :
    (callWithRetry (fun _ : Nat => Except.error (α := Nat) errCode503) 3 100).2 = 4 ∧
    (callWithRetry opAlwaysMsg503 3 100).2 = 1 := by
  have h1 := callWithRetry_transient_classification errCode503
    (fun _ : Nat => Except.error (α := Nat) errCode503) (fun _ => rfl) 3 100
  have h2 := callWithRetry_transient_classification errMsg503
    opAlwaysMsg503 (fun _ => rfl) 3 100
  refine ⟨?_, ?_⟩
  · rw [h1.2.1, if_pos (by decide)]
  · rw [h2.2.1, if_neg (by decide)]

/-- `NodeType` enum from `types.ts`. -/
inductive NodeType where
  | ROOT
  | COMPONENT
  | FUNDAMENTAL
  | ASSUMPTION
deriving DecidableEq, Repr

/-- A grounding source: `{ title, uri }`. -/
structure SourceRef where
  title : String
  uri : String
deriving DecidableEq, Repr

/-- The scalar (non-children) fields of `NodeData` from `types.ts`; every
optional field of the interface is an `Option`. -/
structure NodeInfo where
  id : String
  name : String
  description : String
  type : NodeType
  level : Nat
  isExpanded : Option Bool := none
  isLoading : Option Bool := none
  isMastered : Option Bool := none
  assumptions : Option (List String) := none
  reasoning : Option String := none
  core_concept : Option String := none
  analogy : Option String := none
  why_important : Option String := none
  imageUrl : Option String := none
  sources : Option (List SourceRef) := none
  detailedExplanation : Option String := none
  isElaborating : Option Bool := none
  learningQuestion : Option String := none
  isGeneratingQuestion : Option Bool := none
deriving DecidableEq, Repr

/-- A node of the decomposition tree: its scalar fields and its optional
`children` array (`none` models an absent `children` field, which is falsy
in `if (root.children)`; `some []` models an empty array, which is truthy). -/
inductive NodeData where
  | mk (info : NodeInfo) (children : Option (List NodeData))

/-- The scalar fields of a node. -/
def NodeData.info : NodeData → NodeInfo
  | .mk i _ => i

/-- The children field of a node. -/
def NodeData.children : NodeData → Option (List NodeData)
  | .mk _ c => c

mutual
/-- Embedding of `updateNodeInTree` (src/App.tsx lines 107-118): if the root
matches, apply `f` and stop; else if the node has a (truthy) `children`
field, rebuild the node with every child updated recursively; else return
the node unchanged. -/
def updateNodeInTree : NodeData → String → (NodeData → NodeData) → NodeData
  | .mk info children, targetId, f =>
    if info.id = targetId then f (.mk info children)
    else
      match children with
      | some cs => .mk info (some (updateChildren cs targetId f))
      | none => .mk info none

/-- `root.children.map(child => updateNodeInTree(child, targetId, updateFn))`. -/
def updateChildren : List NodeData → String → (NodeData → NodeData) → List NodeData
  | [], _, _ => []
  | c :: cs, targetId, f =>
    updateNodeInTree c targetId f :: updateChildren cs targetId f
end

mutual
/-- Does some node of the tree carry the given id? -/
def containsId : NodeData → String → Bool
  | .mk info children, t =>
    info.id == t ||
      match children with
      | some cs => containsList cs t
      | none => false

/-- Does some node of one of the trees in the list carry the given id? -/
def containsList : List NodeData → String → Bool
  | [], _ => false
  | c :: cs, t => containsId c t || containsList cs t
end

mutual
/-- Helper: an update whose target id occurs nowhere leaves the tree equal. -/
theorem updateNode_miss_eq (t : String) (f : NodeData → NodeData) :
    ∀ (n : NodeData), containsId n t = false → updateNodeInTree n t f = n
  | .mk info (some cs), h => by
    simp only [containsId, Bool.or_eq_false_iff, beq_eq_false_iff_ne, ne_eq] at h
    unfold updateNodeInTree
    rw [if_neg h.1]
    exact congrArg (fun l => NodeData.mk info (some l))
      (updateChildren_miss_eq t f cs h.2)
  | .mk info none, h => by
    simp only [containsId, Bool.or_eq_false_iff, beq_eq_false_iff_ne, ne_eq] at h
    unfold updateNodeInTree
    rw [if_neg h.1]

/-- Helper: the list version of `updateNode_miss_eq`. -/
theorem updateChildren_miss_eq (t : String) (f : NodeData → NodeData) :
    ∀ (cs : List NodeData), containsList cs t = false → updateChildren cs t f = cs
  | [], _ => rfl
  | c :: cs, h => by
    simp only [containsList, Bool.or_eq_false_iff] at h
    unfold updateChildren
    rw [updateNode_miss_eq t f c h.1, updateChildren_miss_eq t f cs h.2]
end

/-- C6: if the target id does not occur as the id of any node of the tree,
`updateNodeInTree` returns a tree structurally equal to its input. -/
theorem updateNodeInTree_miss (T : NodeData) (targetId : String)
    (f : NodeData → NodeData) (h : containsId T targetId = false) :
    updateNodeInTree T targetId f = T :=
  updateNode_miss_eq targetId f T h

/-- A sample two-level tree: root `r1` with children `c1` and `c2`. -/
def sampleLeaf (i : String) : NodeData :=
  .mk { id := i, name := i, description := "", type := .COMPONENT, level := 1 } none

/-- A concrete sample tree used by the witnesses. -/
def sampleTree : NodeData :=
  .mk { id := "r1", name := "root", description := "", type := .ROOT, level := 0 }
    (some [sampleLeaf "c1", sampleLeaf "c2"])

/-- A sample update function: set `isExpanded` to `true`. -/
def setExpanded (n : NodeData) : NodeData :=
  .mk { n.info with isExpanded := some true } n.children

/-- Witness for C6: id `"zz"` is absent from `sampleTree`, and the update
targeting it is a no-op. -/
theorem updateNodeInTree_miss_witness :
    containsId sampleTree "zz" = false ∧
    updateNodeInTree sampleTree "zz" setExpanded = sampleTree :=
  ⟨rfl, updateNodeInTree_miss sampleTree "zz" setExpanded rfl⟩

mutual
/-- No ancestor relationship between ids `a` and `b` inside the tree:
below a node carrying id `a` the id `b` never occurs, and vice versa. -/
def sepNode (a b : String) : NodeData → Bool
  | .mk info children =>
    if info.id = a then
      match children with
      | some cs => !(containsList cs b)
      | none => true
    else if info.id = b then
      match children with
      | some cs => !(containsList cs a)
      | none => true
    else
      match children with
      | some cs => sepList a b cs
      | none => true

/-- List version of `sepNode`. -/
def sepList (a b : String) : List NodeData → Bool
  | [] => true
  | c :: cs => sepNode a b c && sepList a b cs
end

/-- The node reached by following a list of child indices. -/
def nodeAt : NodeData → List Nat → Option NodeData
  | n, [] => some n
  | .mk _ children, i :: p =>
    match children with
    | some cs =>
      match cs[i]? with
      | some c => nodeAt c p
      | none => none
    | none => none

mutual
/-- Helper: disjoint updates commute, provided `f` never introduces id `b`
and `g` never introduces id `a`. -/
theorem updateNode_comm_aux (a b : String) (f g : NodeData → NodeData)
    (hab : a ≠ b)
    (hf : ∀ n, containsId n b = false → containsId (f n) b = false)
    (hg : ∀ n, containsId n a = false → containsId (g n) a = false) :
    ∀ (n : NodeData), sepNode a b n = true →
      updateNodeInTree (updateNodeInTree n a f) b g =
        updateNodeInTree (updateNodeInTree n b g) a f
  | .mk info children, hsep => by
    by_cases hA : info.id = a
    · have hnb : containsId (.mk info children) b = false := by
        unfold sepNode at hsep
        rw [if_pos hA] at hsep
        unfold containsId
        have hidb : (info.id == b) = false := by
          simp only [beq_eq_false_iff_ne, ne_eq, hA]
          exact hab
        rw [hidb, Bool.false_or]
        match children with
        | some cs => simpa using hsep
        | none => rfl
      have e1 : updateNodeInTree (.mk info children) a f = f (.mk info children) := by
        unfold updateNodeInTree
        rw [if_pos hA]
      have e2 : updateNodeInTree (.mk info children) b g = .mk info children :=
        updateNode_miss_eq b g _ hnb
      rw [e1, e2, e1, updateNode_miss_eq b g _ (hf _ hnb)]
    · by_cases hB : info.id = b
      · have hna : containsId (.mk info children) a = false := by
          unfold sepNode at hsep
          rw [if_neg hA, if_pos hB] at hsep
          unfold containsId
          have hida : (info.id == a) = false := by
            simp only [beq_eq_false_iff_ne, ne_eq, hB]
            exact fun hba => hab hba.symm
          rw [hida, Bool.false_or]
          match children with
          | some cs => simpa using hsep
          | none => rfl
        have e1 : updateNodeInTree (.mk info children) b g = g (.mk info children) := by
          unfold updateNodeInTree
          rw [if_pos hB]
        have e2 : updateNodeInTree (.mk info children) a f = .mk info children :=
          updateNode_miss_eq a f _ hna
        rw [e1, e2, e1, updateNode_miss_eq a f _ (hg _ hna)]
      · match children with
        | none =>
          have e1 : updateNodeInTree (.mk info none) a f = .mk info none := by
            unfold updateNodeInTree
            rw [if_neg hA]
          have e2 : updateNodeInTree (.mk info none) b g = .mk info none := by
            unfold updateNodeInTree
            rw [if_neg hB]
          rw [e1, e2, e1]
        | some cs =>
          have hsl : sepList a b cs = true := by
            unfold sepNode at hsep
            rw [if_neg hA, if_neg hB] at hsep
            exact hsep
          have eA : updateNodeInTree (.mk info (some cs)) a f =
              .mk info (some (updateChildren cs a f)) := by
            unfold updateNodeInTree
            rw [if_neg hA]
          have eB : updateNodeInTree (.mk info (some cs)) b g =
              .mk info (some (updateChildren cs b g)) := by
            unfold updateNodeInTree
            rw [if_neg hB]
          have eA2 : updateNodeInTree (.mk info (some (updateChildren cs b g))) a f =
              .mk info (some (updateChildren (updateChildren cs b g) a f)) := by
            unfold updateNodeInTree
            rw [if_neg hA]
          have eB2 : updateNodeInTree (.mk info (some (updateChildren cs a f))) b g =
              .mk info (some (updateChildren (updateChildren cs a f) b g)) := by
            unfold updateNodeInTree
            rw [if_neg hB]
          rw [eA, eB2, eB, eA2]
          exact congrArg (fun l => NodeData.mk info (some l))
            (updateChildren_comm_aux a b f g hab hf hg cs hsl)

/-- Helper: list version of `updateNode_comm_aux`. -/
theorem updateChildren_comm_aux (a b : String) (f g : NodeData → NodeData)
    (hab : a ≠ b)
    (hf : ∀ n, containsId n b = false → containsId (f n) b = false)
    (hg : ∀ n, containsId n a = false → containsId (g n) a = false) :
    ∀ (cs : List NodeData), sepList a b cs = true →
      updateChildren (updateChildren cs a f) b g =
        updateChildren (updateChildren cs b g) a f
  | [], _ => rfl
  | c :: cs, h => by
    simp only [sepList, Bool.and_eq_true] at h
    show updateNodeInTree (updateNodeInTree c a f) b g ::
        updateChildren (updateChildren cs a f) b g =
      updateNodeInTree (updateNodeInTree c b g) a f ::
        updateChildren (updateChildren cs b g) a f
    rw [updateNode_comm_aux a b f g hab hf hg c h.1,
      updateChildren_comm_aux a b f g hab hf hg cs h.2]
end

/-- C7 (amended): disjoint tree updates commute, provided additionally that
`f` never introduces a node with id `b` and `g` never introduces a node
with id `a`. -/
theorem updateNodeInTree_comm (T : NodeData) (a b : String)
    (f g : NodeData → NodeData) (hab : a ≠ b)
    (_hpa : containsId T a = true) (_hpb : containsId T b = true)
    (hsep : sepNode a b T = true)
    (hf : ∀ n, containsId n b = false → containsId (f n) b = false)
    (hg : ∀ n, containsId n a = false → containsId (g n) a = false) :
    updateNodeInTree (updateNodeInTree T a f) b g =
      updateNodeInTree (updateNodeInTree T b g) a f :=
  updateNode_comm_aux a b f g hab hf hg T hsep

/-- A concrete tree with the two sibling leaves `a` and `b`. -/
def sampleTreeAB : NodeData :=
  .mk { id := "r1", name := "root", description := "", type := .ROOT, level := 0 }
    (some [sampleLeaf "a", sampleLeaf "b"])

/-- A second sample update function: set `isMastered` to `true`. -/
def setMastered (n : NodeData) : NodeData :=
  .mk { n.info with isMastered := some true } n.children

/-- `setExpanded` changes no id and no children, so it preserves
`containsId`. -/
theorem containsId_setExpanded (n : NodeData) (t : String) :
    containsId (setExpanded n) t = containsId n t := by
  cases n
  rfl

/-- `setMastered` changes no id and no children, so it preserves
`containsId`. -/
theorem containsId_setMastered (n : NodeData) (t : String) :
    containsId (setMastered n) t = containsId n t := by
  cases n
  rfl

/-- Witness for the amended C7: the field updates `setExpanded` at `a` and
`setMastered` at `b` commute on `sampleTreeAB`. -/
theorem updateNodeInTree_comm_witness :
    containsId sampleTreeAB "a" = true ∧ containsId sampleTreeAB "b" = true ∧
    sepNode "a" "b" sampleTreeAB = true ∧
    updateNodeInTree (updateNodeInTree sampleTreeAB "a" setExpanded) "b" setMastered =
      updateNodeInTree (updateNodeInTree sampleTreeAB "b" setMastered) "a" setExpanded := by
  refine ⟨rfl, rfl, rfl, ?_⟩
  exact updateNodeInTree_comm sampleTreeAB "a" "b" setExpanded setMastered
    (by decide) rfl rfl rfl
    (fun n h => by rw [containsId_setExpanded]; exact h)
    (fun n h => by rw [containsId_setMastered]; exact h)

/-- The inner `b`-node planted by the adversarial update function. -/
def innerB : NodeData :=
  .mk { id := "b", name := "q", description := "", type := .COMPONENT, level := 2 } none

/-- An update function that replaces the target with an `a`-node whose
child carries id `b`. -/
def plantB : NodeData → NodeData := fun _ =>
  .mk { id := "a", name := "A", description := "", type := .COMPONENT, level := 1 }
    (some [innerB])

/-- An update function appending `"!"` to the node's name. -/
def bangName : NodeData → NodeData := fun n =>
  .mk { n.info with name := n.info.name ++ "!" } n.children

/-- Counterexample to C7 as stated: on `sampleTreeAB` the ids `a` and `b`
are present, distinct and unrelated by ancestry, yet the updates `plantB`
at `a` and `bangName` at `b` do not commute, because `plantB` introduces a
fresh node with id `b` that only one composition order renames. -/
theorem claim_c7_counterexample :
    containsId sampleTreeAB "a" = true ∧ containsId sampleTreeAB "b" = true ∧
    sepNode "a" "b" sampleTreeAB = true ∧
    updateNodeInTree (updateNodeInTree sampleTreeAB "a" plantB) "b" bangName ≠
      updateNodeInTree (updateNodeInTree sampleTreeAB "b" bangName) "a" plantB := by
  refine ⟨rfl, rfl, rfl, fun h => ?_⟩
  have h2 := congrArg (fun t => (nodeAt t [0, 0]).map (fun n => n.info.name)) h
  exact absurd h2 (by decide)

/-- The update applied by `handleExpandNode`'s catch handler
(src/App.tsx lines 318-323): `n => ({ ...n, isLoading: false })`. -/
def clearLoading (n : NodeData) : NodeData :=
  .mk { n.info with isLoading := some false } n.children

mutual
/-- No node carrying the given id has a strict descendant carrying it too. -/
def noNestedId : NodeData → String → Bool
  | .mk info children, t =>
    if info.id = t then
      match children with
      | some cs => !(containsList cs t)
      | none => true
    else
      match children with
      | some cs => noNestedList cs t
      | none => true

/-- List version of `noNestedId`. -/
def noNestedList : List NodeData → String → Bool
  | [], _ => true
  | c :: cs, t => noNestedId c t && noNestedList cs t
end

/-- `updateChildren` preserves list length. -/
theorem updateChildren_length (cs : List NodeData) (t : String)
    (f : NodeData → NodeData) :
    (updateChildren cs t f).length = cs.length := by
  induction cs with
  | nil => rfl
  | cons c cs ih => simpa [updateChildren] using ih

/-- `updateChildren` maps over the list, so indexing commutes with it. -/
theorem updateChildren_getElem? (cs : List NodeData) (t : String)
    (f : NodeData → NodeData) (i : Nat) :
    (updateChildren cs t f)[i]? = (cs[i]?).map (fun c => updateNodeInTree c t f) := by
  induction cs generalizing i with
  | nil => simp [updateChildren]
  | cons c cs ih =>
    cases i with
    | zero => simp [updateChildren]
    | succ j => simpa [updateChildren] using ih j

/-- Membership of an indexed element. -/
theorem mem_of_index {α : Type} {l : List α} {i : Nat} {a : α}
    (h : l[i]? = some a) : a ∈ l := by
  obtain ⟨hlt, heq⟩ := List.getElem?_eq_some.mp h
  rw [← heq]
  exact List.getElem_mem hlt

/-- An id absent from a list of trees is absent from each member. -/
theorem containsList_false_mem {cs : List NodeData} {t : String}
    (h : containsList cs t = false) {c : NodeData} (hc : c ∈ cs) :
    containsId c t = false := by
  induction cs with
  | nil => cases hc
  | cons d ds ih =>
    simp only [containsList, Bool.or_eq_false_iff] at h
    rcases List.mem_cons.mp hc with rfl | hm
    · exact h.1
    · exact ih h.2 hm

/-- `noNestedList` holds of each member. -/
theorem noNestedList_mem {cs : List NodeData} {t : String}
    (h : noNestedList cs t = true) {c : NodeData} (hc : c ∈ cs) :
    noNestedId c t = true := by
  induction cs with
  | nil => cases hc
  | cons d ds ih =>
    simp only [noNestedList, Bool.and_eq_true] at h
    rcases List.mem_cons.mp hc with rfl | hm
    · exact h.1
    · exact ih h.2 hm

/-- In a tree not containing `t`, no reachable node carries id `t`. -/
theorem nodeAt_id_ne (t : String) :
    ∀ (p : List Nat) (c : NodeData), containsId c t = false →
      ∀ n', nodeAt c p = some n' → n'.info.id ≠ t := by
  intro p
  induction p with
  | nil =>
    intro c hc n' hn
    cases c with
    | mk info ch =>
      simp only [nodeAt, Option.some.injEq] at hn
      subst hn
      unfold containsId at hc
      have h1 := (Bool.or_eq_false_iff.mp hc).1
      simpa using h1
  | cons i q ih =>
    intro c hc n' hn
    cases c with
    | mk info ch =>
      match ch, hn with
      | some cs, hn =>
        simp only [nodeAt] at hn
        match hg : cs[i]? with
        | some cc =>
          rw [hg] at hn
          have hcc : containsId cc t = false := by
            unfold containsId at hc
            exact containsList_false_mem (Bool.or_eq_false_iff.mp hc).2
              (mem_of_index hg)
          exact ih cc hcc n' hn
        | none => rw [hg] at hn; cases hn
      | none, hn => cases hn

/-- C9: when the expansion of a node fails, the tree update applied by the
catch handler changes nothing but the target's `isLoading` field: every
position of the tree still exists with the same number of children (no
children attached anywhere), and every scalar field of every node
(assumptions included) is unchanged, except that nodes carrying the target
id get `isLoading := false`. -/
theorem expandFailure_frame (T : NodeData) (tid : String)
    (h : noNestedId T tid = true) (p : List Nat) :
    (nodeAt (updateNodeInTree T tid clearLoading) p).map
        (fun n => (n.info, n.children.map List.length)) =
      (nodeAt T p).map
        (fun n =>
          ((if n.info.id = tid then { n.info with isLoading := some false }
            else n.info),
           n.children.map List.length)) := by
  induction p generalizing T with
  | nil =>
    cases T with
    | mk info ch =>
      by_cases hid : info.id = tid
      · have : updateNodeInTree (.mk info ch) tid clearLoading =
            .mk { info with isLoading := some false } ch := by
          unfold updateNodeInTree
          rw [if_pos hid]
          rfl
        rw [this]
        simp [nodeAt, hid, NodeData.info, NodeData.children]
      · cases ch with
        | none =>
          have : updateNodeInTree (.mk info none) tid clearLoading =
              .mk info none := by
            unfold updateNodeInTree
            rw [if_neg hid]
          rw [this]
          simp [nodeAt, hid, NodeData.info, NodeData.children]
        | some cs =>
          have : updateNodeInTree (.mk info (some cs)) tid clearLoading =
              .mk info (some (updateChildren cs tid clearLoading)) := by
            unfold updateNodeInTree
            rw [if_neg hid]
          rw [this]
          simp [nodeAt, hid, NodeData.info, NodeData.children,
            updateChildren_length]
  | cons i q ih =>
    cases T with
    | mk info ch =>
      by_cases hid : info.id = tid
      · have hupd : updateNodeInTree (.mk info ch) tid clearLoading =
            .mk { info with isLoading := some false } ch := by
          unfold updateNodeInTree
          rw [if_pos hid]
          rfl
        rw [hupd]
        cases ch with
        | none => simp [nodeAt]
        | some cs =>
          simp only [nodeAt]
          cases hg : cs[i]? with
          | none => rfl
          | some c =>
            have hcc : containsId c tid = false := by
              unfold noNestedId at h
              rw [if_pos hid] at h
              have : containsList cs tid = false := by simpa using h
              exact containsList_false_mem this (mem_of_index hg)
            show Option.map (fun n => (n.info, n.children.map List.length))
                (nodeAt c q) =
              Option.map
                (fun n =>
                  ((if n.info.id = tid then
                      { n.info with isLoading := some false } else n.info),
                   n.children.map List.length)) (nodeAt c q)
            cases hq : nodeAt c q with
            | none => rfl
            | some n' =>
              have hne := nodeAt_id_ne tid q c hcc n' hq
              simp [if_neg hne]
      · cases ch with
        | none =>
          have : updateNodeInTree (.mk info none) tid clearLoading =
              .mk info none := by
            unfold updateNodeInTree
            rw [if_neg hid]
          rw [this]
          simp [nodeAt]
        | some cs =>
          have hupd : updateNodeInTree (.mk info (some cs)) tid clearLoading =
              .mk info (some (updateChildren cs tid clearLoading)) := by
            unfold updateNodeInTree
            rw [if_neg hid]
          rw [hupd]
          simp only [nodeAt, updateChildren_getElem?]
          match hg : cs[i]? with
          | none => rfl
          | some c =>
            have hcnn : noNestedId c tid = true := by
              unfold noNestedId at h
              rw [if_neg hid] at h
              exact noNestedList_mem h (mem_of_index hg)
            simpa using ih c hcnn

/-- A tree whose `c1` leaf is marked loading, as after the optimistic
update that precedes the verification call. -/
def loadingTree : NodeData :=
  .mk { id := "r1", name := "root", description := "", type := .ROOT, level := 0 }
    (some [.mk { id := "c1", name := "child", description := "", type := .COMPONENT,
                 level := 1, isLoading := some true, assumptions := some ["a1"] } none,
           sampleLeaf "c2"])

/-- Witness for C9 on `loadingTree` at the path of the loading node. -/
theorem expandFailure_frame_witness :
    noNestedId loadingTree "c1" = true ∧
    (nodeAt (updateNodeInTree loadingTree "c1" clearLoading) [0]).map
        (fun n => (n.info, n.children.map List.length)) =
      (nodeAt loadingTree [0]).map
        (fun n =>
          ((if n.info.id = "c1" then { n.info with isLoading := some false }
            else n.info),
           n.children.map List.length)) :=
  ⟨rfl, expandFailure_frame loadingTree "c1" rfl [0]⟩

/-- Embedding of `handleElaborate` (src/App.tsx lines 326-357) as a tree
transformer parameterized by the outcome of the awaited `getElaboration`
call: the flag-setting update always runs first; the update that stores the
explanation and clears `isElaborating` runs only when the awaited call
resolves — the handler has no try/catch, so a rejection skips it. -/
def handleElaborateTree (root : NodeData) (nodeId : String)
    (outcome : Except JsError String) : NodeData :=
  let r1 := updateNodeInTree root nodeId
    (fun n => .mk { n.info with isElaborating := some true } n.children)
  match outcome with
  | .ok text =>
    updateNodeInTree r1 nodeId
      (fun n =>
        .mk { n.info with
              isElaborating := some false
              detailedExplanation := some text } n.children)
  | .error _ => r1

/-- Embedding of `handleSocraticChallenge` (src/App.tsx lines 887-894) on
the selected node's fields: `isGeneratingQuestion` is set `true` first; the
update that stores the question and clears the flag runs only when the
awaited `generateLearningQuestion` call resolves — again no try/catch. -/
def handleSocraticSelected (sel : NodeInfo) (outcome : Except JsError String) :
    NodeInfo :=
  let s1 := { sel with isGeneratingQuestion := some true }
  match outcome with
  | .ok q =>
    { sel with
      learningQuestion := some q
      isGeneratingQuestion := some false }
  | .error _ => s1

/-- A permanent (non-transient) error. -/
def errPermanent : JsError := ⟨some 400, none, some "Bad Request"⟩

/-- C8 evaluated at the failing input: when the awaited call rejects, the
per-node transient flag set at the start is never cleared — `isElaborating`
(and `isGeneratingQuestion`) remain `true`, contradicting the claim that
failure always clears the flag. -/
theorem elaborate_failure_flag_never_cleared :
    (nodeAt (handleElaborateTree sampleTree "c1" (.error errPermanent)) [0]).map
        (fun n => n.info.isElaborating) = some (some true) ∧
    (handleSocraticSelected (sampleLeaf "s1").info
        (.error errPermanent)).isGeneratingQuestion = some true := by
  exact ⟨rfl, rfl⟩

/-- The shape of a decomposition response, after the `{ ...parsed, sources,
dataSource }` spread. -/
structure DecompositionResponse where
  core_concept : String
  analogy : String
  why_important : String
  components : List RawComponent
  assumptions : List String
  sources : List SourceRef
  dataSource : String
deriving DecidableEq, Repr

/-- Embedding of `getFallbackDecomposition`
(src/services/geminiService.ts lines 104-115). -/
def getFallbackDecomposition (topic : String) : DecompositionResponse where
  core_concept := topic ++ " (Offline Mode)"
  analogy := "System offline"
  why_important := "Cannot retrieve importance without AI"
  components :=
    [⟨some "Component 1", some "Placeholder data", some false, some "Offline"⟩,
     ⟨some "Component 2", some "Placeholder data", some false, some "Offline"⟩]
  assumptions := ["Data is offline"]
  sources := []
  dataSource := "FALLBACK"

/-- The `if (!ai) return getFallbackDecomposition(topic);` branch of
`decomposeTopic` (src/services/geminiService.ts lines 140-141): when the
capability is not configured, the fallback payload is returned directly,
bypassing the dedup / self-reference filter. -/
def decomposeTopicOffline (topic : String) : DecompositionResponse :=
  getFallbackDecomposition topic

/-- The `if (!ai) return getFallbackDecomposition(componentName);` branch of
`verifyFundamental` (src/services/geminiService.ts lines 208-209). -/
def verifyFundamentalOffline (componentName : String) : DecompositionResponse :=
  getFallbackDecomposition componentName

/-- C10: for the topic `"Component 1"`, both offline paths return a payload
containing a component whose name equals the topic under case-insensitive
whitespace-trimmed comparison, and running the normalizer over that payload
would change it — so the self-reference-exclusion and dedup guarantees do
not hold on the fallback path. -/
theorem fallback_bypasses_normalizer :
    ((decomposeTopicOffline "Component 1").components.any
        (fun c => nameKey c == some (jsLower (jsTrim "Component 1")))) = true ∧
    ((verifyFundamentalOffline "Component 1").components.any
        (fun c => nameKey c == some (jsLower (jsTrim "Component 1")))) = true ∧
    normalizeComponents (decomposeTopicOffline "Component 1").components
        "Component 1" ≠
      (decomposeTopicOffline "Component 1").components := by
  refine ⟨by decide, by decide, by decide⟩

/-- `nameKey` of a component without a name. -/
theorem nameKey_of_none {comp : RawComponent} (hn : comp.name = none) :
    nameKey comp = none := by
  unfold nameKey
  rw [hn]

/-- `nameKey` of a component whose name is blank after trimming. -/
theorem nameKey_of_blank {comp : RawComponent} {s : String}
    (hn : comp.name = some s) (ht : jsTrim s = "") : nameKey comp = none := by
  unfold nameKey
  rw [hn]
  show (if jsTrim s = "" then none else some (jsLower (jsTrim s))) = none
  rw [if_pos ht]

/-- `nameKey` of a component with a non-blank name. -/
theorem nameKey_of_valid {comp : RawComponent} {s : String}
    (hn : comp.name = some s) (ht : jsTrim s ≠ "") :
    nameKey comp = some (jsLower (jsTrim s)) := by
  unfold nameKey
  rw [hn]
  show (if jsTrim s = "" then none else some (jsLower (jsTrim s))) = _
  rw [if_neg ht]

/-- Loop step: a nameless component is skipped. -/
theorem normGo_cons_none (seen : List String) (root : String)
    {comp : RawComponent} (rest : List RawComponent) (hn : comp.name = none) :
    normGo seen root (comp :: rest) = normGo seen root rest := by
  show (match comp.name with
        | none => normGo seen root rest
        | some s =>
          let name := jsTrim s
          if name = "" then normGo seen root rest
          else
            let key := jsLower name
            if key ∈ seen ∨ key = root then normGo seen root rest
            else comp :: normGo (key :: seen) root rest) = normGo seen root rest
  rw [hn]

/-- Loop step: a blank-named component is skipped. -/
theorem normGo_cons_blank (seen : List String) (root : String)
    {comp : RawComponent} (rest : List RawComponent) {s : String}
    (hn : comp.name = some s) (ht : jsTrim s = "") :
    normGo seen root (comp :: rest) = normGo seen root rest := by
  show (match comp.name with
        | none => normGo seen root rest
        | some s =>
          let name := jsTrim s
          if name = "" then normGo seen root rest
          else
            let key := jsLower name
            if key ∈ seen ∨ key = root then normGo seen root rest
            else comp :: normGo (key :: seen) root rest) = normGo seen root rest
  rw [hn]
  show (if jsTrim s = "" then normGo seen root rest
        else if jsLower (jsTrim s) ∈ seen ∨ jsLower (jsTrim s) = root
             then normGo seen root rest
             else comp :: normGo (jsLower (jsTrim s) :: seen) root rest) =
    normGo seen root rest
  rw [if_pos ht]

/-- Loop step: a component whose key was seen or equals the topic key is
skipped. -/
theorem normGo_cons_skip (seen : List String) (root : String)
    {comp : RawComponent} (rest : List RawComponent) {s : String}
    (hn : comp.name = some s) (ht : jsTrim s ≠ "")
    (hk : jsLower (jsTrim s) ∈ seen ∨ jsLower (jsTrim s) = root) :
    normGo seen root (comp :: rest) = normGo seen root rest := by
  show (match comp.name with
        | none => normGo seen root rest
        | some s =>
          let name := jsTrim s
          if name = "" then normGo seen root rest
          else
            let key := jsLower name
            if key ∈ seen ∨ key = root then normGo seen root rest
            else comp :: normGo (key :: seen) root rest) = normGo seen root rest
  rw [hn]
  show (if jsTrim s = "" then normGo seen root rest
        else if jsLower (jsTrim s) ∈ seen ∨ jsLower (jsTrim s) = root
             then normGo seen root rest
             else comp :: normGo (jsLower (jsTrim s) :: seen) root rest) =
    normGo seen root rest
  rw [if_neg ht, if_pos hk]

/-- Loop step: a component with a fresh, non-topic key is kept and its key
recorded. -/
theorem normGo_cons_keep (seen : List String) (root : String)
    {comp : RawComponent} (rest : List RawComponent) {s : String}
    (hn : comp.name = some s) (ht : jsTrim s ≠ "")
    (hk : ¬(jsLower (jsTrim s) ∈ seen ∨ jsLower (jsTrim s) = root)) :
    normGo seen root (comp :: rest) =
      comp :: normGo (jsLower (jsTrim s) :: seen) root rest := by
  show (match comp.name with
        | none => normGo seen root rest
        | some s =>
          let name := jsTrim s
          if name = "" then normGo seen root rest
          else
            let key := jsLower name
            if key ∈ seen ∨ key = root then normGo seen root rest
            else comp :: normGo (key :: seen) root rest) = comp :: normGo (jsLower (jsTrim s) :: seen) root rest
  rw [hn]
  show (if jsTrim s = "" then normGo seen root rest
        else if jsLower (jsTrim s) ∈ seen ∨ jsLower (jsTrim s) = root
             then normGo seen root rest
             else comp :: normGo (jsLower (jsTrim s) :: seen) root rest) =
    comp :: normGo (jsLower (jsTrim s) :: seen) root rest
  rw [if_neg ht, if_neg hk]

/-- Invariant of the dedup loop: the output is a subsequence of the input,
its keys are pairwise distinct, and every survivor has a valid key that was
neither seen before nor equal to the topic key and is the first element of
the input carrying that key. -/
theorem normGo_spec (root : String) :
    ∀ (xs : List RawComponent) (seen : List String),
      (normGo seen root xs).Sublist xs ∧
      List.Pairwise (fun c d => nameKey c ≠ nameKey d) (normGo seen root xs) ∧
      ∀ c ∈ normGo seen root xs, ∃ k, nameKey c = some k ∧ k ∉ seen ∧ k ≠ root ∧
        xs.find? (fun d => nameKey d == some k) = some c := by
  intro xs
  induction xs with
  | nil =>
    intro seen
    exact ⟨List.Sublist.refl _, List.Pairwise.nil, by intro c hc; cases hc⟩
  | cons comp rest ih =>
    intro seen
    match hn : comp.name with
    | none =>
      rw [normGo_cons_none seen root rest hn]
      refine ⟨(ih seen).1.cons _, (ih seen).2.1, ?_⟩
      intro c hc
      obtain ⟨k, hkk, hks, hkr, hfind⟩ := (ih seen).2.2 c hc
      refine ⟨k, hkk, hks, hkr, ?_⟩
      rw [List.find?_cons_of_neg _ (by simp [nameKey_of_none hn])]
      exact hfind
    | some s =>
      by_cases ht : jsTrim s = ""
      · rw [normGo_cons_blank seen root rest hn ht]
        refine ⟨(ih seen).1.cons _, (ih seen).2.1, ?_⟩
        intro c hc
        obtain ⟨k, hkk, hks, hkr, hfind⟩ := (ih seen).2.2 c hc
        refine ⟨k, hkk, hks, hkr, ?_⟩
        rw [List.find?_cons_of_neg _ (by simp [nameKey_of_blank hn ht])]
        exact hfind
      · by_cases hk : jsLower (jsTrim s) ∈ seen ∨ jsLower (jsTrim s) = root
        · rw [normGo_cons_skip seen root rest hn ht hk]
          refine ⟨(ih seen).1.cons _, (ih seen).2.1, ?_⟩
          intro c hc
          obtain ⟨k, hkk, hks, hkr, hfind⟩ := (ih seen).2.2 c hc
          have hkne : jsLower (jsTrim s) ≠ k := by
            rcases hk with hk1 | hk2
            · exact fun h => hks (h ▸ hk1)
            · exact fun h => hkr (h ▸ hk2)
          refine ⟨k, hkk, hks, hkr, ?_⟩
          rw [List.find?_cons_of_neg _
            (by simp only [nameKey_of_valid hn ht, beq_iff_eq, Option.some.injEq]
                exact hkne)]
          exact hfind
        · rw [normGo_cons_keep seen root rest hn ht hk]
          have hk' := not_or.mp hk
          refine ⟨(ih _).1.cons₂ _, ?_, ?_⟩
          · refine List.pairwise_cons.mpr ⟨?_, (ih _).2.1⟩
            intro d hd
            obtain ⟨k, hkk, hks, -, -⟩ := (ih _).2.2 d hd
            have : k ≠ jsLower (jsTrim s) :=
              fun h => hks (h ▸ List.mem_cons_self _ _)
            rw [nameKey_of_valid hn ht, hkk]
            exact fun h => this (Option.some.inj h).symm
          · intro c hc
            rcases List.mem_cons.mp hc with rfl | hc'
            · refine ⟨jsLower (jsTrim s), nameKey_of_valid hn ht, hk'.1, hk'.2, ?_⟩
              rw [List.find?_cons_of_pos _
                (by simp [nameKey_of_valid hn ht])]
            · obtain ⟨k, hkk, hks, hkr, hfind⟩ := (ih _).2.2 c hc'
              have hkne : k ≠ jsLower (jsTrim s) :=
                fun h => hks (h ▸ List.mem_cons_self _ _)
              have hks' : k ∉ seen := fun h => hks (List.mem_cons_of_mem _ h)
              refine ⟨k, hkk, hks', hkr, ?_⟩
              rw [List.find?_cons_of_neg _
                (by simp only [nameKey_of_valid hn ht, beq_iff_eq,
                      Option.some.injEq]
                    exact fun h => hkne h.symm)]
              exact hfind

/-- Lowercasing an ASCII uppercase letter adds 32 to its code point. -/
theorem toNat_jsLowerChar_of_upper {c : Char}
    (h : 65 ≤ c.toNat ∧ c.toNat ≤ 90) :
    (jsLowerChar c).toNat = c.toNat + 32 := by
  unfold jsLowerChar
  rw [if_pos h]
  have hv : (c.toNat + 32).isValidChar := Or.inl (by omega)
  unfold Char.ofNat
  rw [dif_pos hv]
  rfl

/-- `toLowerCase` maps whitespace to whitespace and non-whitespace to
non-whitespace. -/
theorem jsWs_jsLowerChar (c : Char) : jsWs (jsLowerChar c) = jsWs c := by
  by_cases h : 65 ≤ c.toNat ∧ c.toNat ≤ 90
  · have h1 := toNat_jsLowerChar_of_upper h
    have hA : jsWs (jsLowerChar c) = false := by
      unfold jsWs
      rw [h1]
      simp only [Bool.or_eq_false_iff, decide_eq_false_iff_not]
      omega
    have hB : jsWs c = false := by
      unfold jsWs
      simp only [Bool.or_eq_false_iff, decide_eq_false_iff_not]
      omega
    rw [hA, hB]
  · unfold jsLowerChar
    rw [if_neg h]

/-- Trimming commutes with lowercasing on character lists. -/
theorem trimList_map_jsLowerChar (l : List Char) :
    trimList (l.map jsLowerChar) = (trimList l).map jsLowerChar := by
  unfold trimList
  have hcomp : (jsWs ∘ jsLowerChar) = jsWs := funext jsWs_jsLowerChar
  rw [List.dropWhile_map, hcomp, ← List.map_reverse, List.dropWhile_map, hcomp,
    ← List.map_reverse]

/-- `s.toLowerCase().trim()` equals `s.trim().toLowerCase()`. -/
theorem jsTrim_jsLower (s : String) : jsTrim (jsLower s) = jsLower (jsTrim s) := by
  show String.mk (trimList (s.data.map jsLowerChar)) =
    String.mk ((trimList s.data).map jsLowerChar)
  exact congrArg String.mk (trimList_map_jsLowerChar s.data)

/-- C3: the normalization drops blank-named components, drops later
duplicates keeping only the first occurrence of each normalized name, and
emits the survivors in input order: the output is a subsequence of the
input, every survivor has a non-blank trimmed name, survivors' keys are
pairwise distinct, and each survivor is the first input element carrying
its key. -/
theorem normalizeComponents_filter_spec (xs : List RawComponent) (t : String) :
    (normalizeComponents xs t).Sublist xs ∧
    (∀ c ∈ normalizeComponents xs t, ∃ s, c.name = some s ∧ jsTrim s ≠ "") ∧
    List.Pairwise (fun c d => nameKey c ≠ nameKey d) (normalizeComponents xs t) ∧
    ∀ c ∈ normalizeComponents xs t,
      xs.find? (fun d => nameKey d == nameKey c) = some c := by
  have spec := normGo_spec (jsTrim (jsLower t)) xs []
  refine ⟨spec.1, ?_, spec.2.1, ?_⟩
  · intro c hc
    obtain ⟨k, hkk, -, -, -⟩ := spec.2.2 c hc
    match hn : c.name with
    | none => rw [nameKey_of_none hn] at hkk; cases hkk
    | some s =>
      by_cases ht : jsTrim s = ""
      · rw [nameKey_of_blank hn ht] at hkk; cases hkk
      · exact ⟨s, rfl, ht⟩
  · intro c hc
    obtain ⟨k, hkk, -, -, hfind⟩ := spec.2.2 c hc
    rw [hkk]
    exact hfind

/-- The components of the spec's first example scenario. -/
def gravityComp : RawComponent := ⟨some "Gravity", none, none, none⟩

/-- A later duplicate of `gravityComp` up to case and whitespace. -/
def gravityDup : RawComponent := ⟨some "gravity ", none, none, none⟩

/-- A distinct third component. -/
def massComp : RawComponent := ⟨some "Mass", none, none, none⟩

/-- The example input list `[Gravity, "gravity ", Mass]`. -/
def demoComps : List RawComponent := [gravityComp, gravityDup, massComp]

/-- Witness for C3 on the spec's example: `Gravity` survives and is the
first element of the input with its key. -/
theorem normalizeComponents_filter_spec_witness :
    gravityComp ∈ normalizeComponents demoComps "Physics" ∧
    demoComps.find? (fun d => nameKey d == nameKey gravityComp) =
      some gravityComp :=
  ⟨by decide,
   (normalizeComponents_filter_spec demoComps "Physics").2.2.2 gravityComp
     (by decide)⟩

/-- C4: no component whose name equals the topic under case-insensitive
whitespace-trimmed comparison survives the normalization. -/
theorem normalizeComponents_no_self_reference (xs : List RawComponent)
    (t : String) :
    ∀ c ∈ normalizeComponents xs t, ∀ s, c.name = some s →
      jsLower (jsTrim s) ≠ jsLower (jsTrim t) := by
  intro c hc s hn
  obtain ⟨k, hkk, -, hkr, -⟩ := (normGo_spec (jsTrim (jsLower t)) xs []).2.2 c hc
  by_cases ht : jsTrim s = ""
  · rw [nameKey_of_blank hn ht] at hkk
    cases hkk
  · rw [nameKey_of_valid hn ht] at hkk
    have hkeq : k = jsLower (jsTrim s) := (Option.some.inj hkk).symm
    intro heq
    apply hkr
    rw [hkeq, heq, ← jsTrim_jsLower]

/-- A component naming the topic with different case and padding. -/
def physComp : RawComponent := ⟨some " PHYSICS ", none, none, none⟩

/-- Witness for C4: on `[physComp, massComp]` with topic `"Physics"`, the
surviving `Mass` is indeed not topic-named. -/
theorem normalizeComponents_no_self_reference_witness :
    massComp ∈ normalizeComponents [physComp, massComp] "Physics" ∧
    jsLower (jsTrim "Mass") ≠ jsLower (jsTrim "Physics") :=
  ⟨by decide,
   normalizeComponents_no_self_reference [physComp, massComp] "Physics"
     massComp (by decide) "Mass" rfl⟩

/-- A list whose members all have valid keys, fresh for `seen` and distinct
from the topic key and from each other, passes through the loop unchanged. -/
theorem normGo_fixed (root : String) :
    ∀ (ys : List RawComponent) (seen : List String),
      (∀ c ∈ ys, ∃ k, nameKey c = some k ∧ k ∉ seen ∧ k ≠ root) →
      List.Pairwise (fun c d => nameKey c ≠ nameKey d) ys →
      normGo seen root ys = ys := by
  intro ys
  induction ys with
  | nil => intro seen _ _; rfl
  | cons c ys ih =>
    intro seen hall hpw
    obtain ⟨k, hkk, hks, hkr⟩ := hall c (List.mem_cons_self _ _)
    match hn : c.name with
    | none => rw [nameKey_of_none hn] at hkk; cases hkk
    | some s =>
      by_cases ht : jsTrim s = ""
      · rw [nameKey_of_blank hn ht] at hkk; cases hkk
      · rw [nameKey_of_valid hn ht] at hkk
        have hkeq : jsLower (jsTrim s) = k := Option.some.inj hkk
        have hcond : ¬(jsLower (jsTrim s) ∈ seen ∨ jsLower (jsTrim s) = root) := by
          rw [hkeq]
          exact fun h => h.elim (fun h1 => hks h1) (fun h2 => hkr h2)
        rw [normGo_cons_keep seen root ys hn ht hcond]
        congr 1
        apply ih
        · intro d hd
          obtain ⟨k', hk', hks', hkr'⟩ := hall d (List.mem_cons_of_mem _ hd)
          have hne : nameKey c ≠ nameKey d := (List.pairwise_cons.mp hpw).1 d hd
          refine ⟨k', hk', ?_, hkr'⟩
          intro hmem
          rcases List.mem_cons.mp hmem with h1 | h2
          · apply hne
            rw [nameKey_of_valid hn ht, hk', h1]
          · exact hks' h2
        · exact (List.pairwise_cons.mp hpw).2

/-- C5: the normalization is idempotent: running it a second time with the
same topic leaves the result unchanged. -/
theorem normalizeComponents_idempotent (xs : List RawComponent) (t : String) :
    normalizeComponents (normalizeComponents xs t) t = normalizeComponents xs t := by
  have spec := normGo_spec (jsTrim (jsLower t)) xs []
  unfold normalizeComponents
  apply normGo_fixed
  · intro c hc
    obtain ⟨k, hkk, -, hkr, -⟩ := spec.2.2 c hc
    exact ⟨k, hkk, List.not_mem_nil k, hkr⟩
  · exact spec.2.1

end FirstPrinciples
